import Mathlib

/-!
Shallow embedding of the parallel persistence layer of the Merkle tree storage
(`core/lib/merkle_tree/src/storage/parallel.rs`): the `ParallelDatabase`
adapter, its read path over the weak command mirror, validation in
`apply_patch`, the persistence thread, pruning, and the `MaybeParallel` mode
switch.  The durable store backing the adapter is modelled from the
specification of the `Database` capability set, since its code is not among
the analysed sources.
-/

/-- Modelled from the spec: `Manifest` carries global bookkeeping such as the
version count (spec §3); its defining code is outside the analysed sources. -/
structure Manifest where
  versionCount : Nat
  deriving DecidableEq

/-- Modelled from the spec: a tree node is the sum `{Internal, Leaf}`, leaves
carry an index (spec §3); its defining code is outside the analysed sources. -/
inductive Node where
  | internal (childRefs : Nat) : Node
  | leaf (leafIndex : Nat) : Node
  deriving DecidableEq

/-- Modelled from the spec: the root of the tree at a version, carrying
aggregate counts and the top node (spec §3). -/
structure Root where
  leafCount : Nat
  node : Node
  deriving DecidableEq

/-- Modelled from the spec: a node key is `(version, nibbles)` (spec §3); the
nibble path is abstracted to a number. -/
structure NodeKey where
  version : Nat
  nibbles : Nat
  deriving DecidableEq

/-- First value bound to `k` in an association list; models a hash-map `get`. -/
def assocFind {α β : Type} [DecidableEq α] (m : List (α × β)) (k : α) : Option β :=
  (m.find? (fun p => decide (p.1 = k))).map Prod.snd

/-- `PartialPatchSet` (declared in `storage/patch.rs`, described in spec §3):
the single-version slice of a patch — an optional root plus a node map. -/
structure PartialPatchSet where
  root : Option Root
  nodes : List (NodeKey × Node)
  deriving DecidableEq

/-- `PartialPatchSet::empty()`. -/
def PartialPatchSet.empty : PartialPatchSet := { root := none, nodes := [] }

/-- `PatchSet` (spec §3): the input of `apply_patch`. -/
structure PatchSet where
  manifest : Manifest
  patchesByVersion : List (Nat × PartialPatchSet)
  updatedVersion : Option Nat
  staleKeysByVersion : List (Nat × List NodeKey)
  deriving DecidableEq

/-- `PersistenceCommand` (`parallel.rs` lines 19-24): one buffered persistence
unit. -/
structure PersistenceCommand where
  manifest : Manifest
  patch : PartialPatchSet
  staleKeys : List NodeKey
  deriving DecidableEq

/-- Modelled from the spec: the prune patch handed to the store's prune
capability (spec §4.A). -/
structure PrunePatchSet where
  prunedNodeKeys : List NodeKey
  deriving DecidableEq

/-- Modelled from the spec: the durable store consumed by the adapter
(spec §4.A) — a manifest, per-version partial patches and per-version stale
keys; all reads are pure.  The concrete store code is outside the analysed
sources. -/
structure Store where
  manifest : Option Manifest
  patches : List (Nat × PartialPatchSet)
  staleKeysByVersion : List (Nat × List NodeKey)
  deriving DecidableEq

/-- The partial patch the store holds for version `v` (empty when absent). -/
def Store.versionPatch (s : Store) (v : Nat) : PartialPatchSet :=
  (assocFind s.patches v).getD PartialPatchSet.empty

/-- Store read: `try_manifest`. -/
def Store.tryManifest (s : Store) : Option Manifest := s.manifest

/-- Store read: `try_root(version)`. -/
def Store.tryRoot (s : Store) (version : Nat) : Option Root :=
  (s.versionPatch version).root

/-- Store read: `try_tree_node(key, is_leaf)`; the variant hint does not
influence the lookup. -/
def Store.tryTreeNode (s : Store) (key : NodeKey) (_isLeaf : Bool) : Option Node :=
  assocFind (s.versionPatch key.version).nodes key

/-- Store read: `tree_nodes(keys)` is positional (spec §4.A). -/
def Store.treeNodes (s : Store) (keys : List (NodeKey × Bool)) : List (Option Node) :=
  keys.map (fun kb => s.tryTreeNode kb.1 kb.2)

/-- Store read: `stale_keys(version)`. -/
def Store.staleKeys (s : Store) (version : Nat) : List NodeKey :=
  (assocFind s.staleKeysByVersion version).getD []

/-- Store read: `min_stale_key_version` — the smallest version holding a
non-empty stale key list. -/
def Store.minStaleKeyVersion (s : Store) : Option Nat :=
  ((s.staleKeysByVersion.filter (fun p => !p.2.isEmpty)).map Prod.fst).foldr
    (fun v acc => some (match acc with | some w => min v w | none => v)) none

/-- Modelled from the spec: merging a later partial patch over the stored one
for the same version — a present root supersedes, node bindings shadow older
ones. -/
def PartialPatchSet.merge (old pp : PartialPatchSet) : PartialPatchSet :=
  { root := match pp.root with | some r => some r | none => old.root
    nodes := pp.nodes ++ old.nodes }

/-- Store write helper: merge one version's partial patch. -/
def Store.applyVersionPatch (s : Store) (v : Nat) (pp : PartialPatchSet) : Store :=
  { s with patches := (v, (s.versionPatch v).merge pp) :: s.patches }

/-- Store write helper: accumulate stale keys for one version. -/
def Store.addStaleKeys (s : Store) (v : Nat) (keys : List NodeKey) : Store :=
  { s with staleKeysByVersion := (v, s.staleKeys v ++ keys) :: s.staleKeysByVersion }

/-- Modelled from the spec: atomic application of a `PatchSet` (spec §4.A) —
partial patches merge per version, stale keys accumulate, the manifest is
replaced. -/
def Store.applyPatch (s : Store) (patch : PatchSet) : Store :=
  let s₁ := patch.patchesByVersion.foldl (fun acc vp => acc.applyVersionPatch vp.1 vp.2) s
  let s₂ := patch.staleKeysByVersion.foldl (fun acc vk => acc.addStaleKeys vk.1 vk.2) s₁
  { s₂ with manifest := some patch.manifest }

/-- Modelled from the spec: the store's own `prune` removes the pruned node
keys (spec §4.A). -/
def Store.prune (s : Store) (patch : PrunePatchSet) : Store :=
  { s with
    patches := s.patches.map (fun vp =>
      (vp.1,
        { root := vp.2.root,
          nodes := vp.2.nodes.filter (fun kn =>
            decide (kn.1 ∉ patch.prunedNodeKeys)) })) }

/-- State of `ParallelDatabase` (`parallel.rs` lines 36-43) as its read path
sees it: the inner store handle, the predefined updated version, the channel
capacity, and the weak command mirror.  A mirror entry is `some c` when the
weak reference still upgrades (the command is not yet persisted) and `none`
when upgrading fails (the persister has already dropped its strong
reference). -/
structure ParallelDatabase where
  inner : Store
  updatedVersion : Nat
  bufferCapacity : Nat
  mirror : List (Option PersistenceCommand)
  deriving DecidableEq

/-- `ParallelDatabase::new` (lines 46-59): a fresh adapter with an empty
mirror over a channel of the given capacity. -/
def ParallelDatabase.new (inner : Store) (updatedVersion bufferCapacity : Nat) :
    ParallelDatabase :=
  { inner := inner, updatedVersion := updatedVersion,
    bufferCapacity := bufferCapacity, mirror := [] }

/-- `try_manifest` (lines 120-127): upgrade only the newest mirror entry
(`commands.iter().next_back().and_then(Weak::upgrade)`); on success return its
manifest, otherwise delegate to the store. -/
def ParallelDatabase.tryManifest (db : ParallelDatabase) : Option Manifest :=
  match db.mirror.getLast?.bind id with
  | some c => some c.manifest
  | none => db.inner.tryManifest

/-- `try_root` (lines 129-143): other versions go straight to the store; for
the updated version the mirror is scanned tail to head for the first live
command carrying a root. -/
def ParallelDatabase.tryRoot (db : ParallelDatabase) (version : Nat) : Option Root :=
  if version ≠ db.updatedVersion then db.inner.tryRoot version
  else
    match db.mirror.reverse.findSome? (fun oc => oc.bind (fun c => c.patch.root)) with
    | some root => some root
    | none => db.inner.tryRoot version

/-- `try_tree_node` (lines 145-164); the debug assertion on the node variant
does not influence the returned value. -/
def ParallelDatabase.tryTreeNode (db : ParallelDatabase) (key : NodeKey)
    (isLeaf : Bool) : Option Node :=
  if key.version ≠ db.updatedVersion then db.inner.tryTreeNode key isLeaf
  else
    match db.mirror.reverse.findSome?
        (fun oc => oc.bind (fun c => assocFind c.patch.nodes key)) with
    | some node => some node
    | none => db.inner.tryTreeNode key isLeaf

/-- One pass of the `tree_nodes` buffer scan (lines 172-180): fill every still
empty slot whose key the command's node map contains. -/
def fillSlots (c : PersistenceCommand) (keys : List (NodeKey × Bool))
    (nodes : List (Option Node)) : List (Option Node) :=
  List.zipWith
    (fun slot kb => match slot with
      | some n => some n
      | none => assocFind c.patch.nodes kb.1)
    nodes keys

/-- Buffer phase of `tree_nodes` (lines 167-181): commands are visited newest
to oldest and dead mirror entries are skipped. -/
def bufferFill (mirror : List (Option PersistenceCommand))
    (keys : List (NodeKey × Bool)) : List (Option Node) :=
  mirror.reverse.foldl
    (fun nodes oc => match oc with
      | some c => fillSlots c keys nodes
      | none => nodes)
    (List.replicate keys.length none)

/-- `tree_nodes` (lines 166-195): after the buffer scan the still-unfilled
indices are collected (`enumerate().filter(..).unzip()`), the compact
sub-request goes to the store, and its answers are written back at their
original positions. -/
def ParallelDatabase.treeNodes (db : ParallelDatabase)
    (keys : List (NodeKey × Bool)) : List (Option Node) :=
  let nodes := bufferFill db.mirror keys
  let missing := keys.enum.filter (fun ik => (nodes.getD ik.1 none).isNone)
  let keyIndexes := missing.map Prod.fst
  let missingKeys := missing.map Prod.snd
  let innerNodes := db.inner.treeNodes missingKeys
  (keyIndexes.zip innerNodes).foldl (fun acc iv => acc.set iv.1 iv.2) nodes

/-- `min_stale_key_version` (lines 261-271), exactly as written: the `any`
closure tests `command.stale_keys.is_empty()` on each live command
(`map_or(false, ..)` makes dead entries contribute `false`). -/
def ParallelDatabase.minStaleKeyVersion (db : ParallelDatabase) : Option Nat :=
  if db.mirror.any (fun oc => (oc.map (fun c => c.staleKeys.isEmpty)).getD false) then
    some db.updatedVersion
  else db.inner.minStaleKeyVersion

/-- `stale_keys` (lines 273-287): other versions delegate; for the updated
version the live commands' stale keys (head to tail) are chained with the
store's. -/
def ParallelDatabase.staleKeys (db : ParallelDatabase) (version : Nat) : List NodeKey :=
  if version ≠ db.updatedVersion then db.inner.staleKeys version
  else
    (db.mirror.map (fun oc => (oc.map (fun c => c.staleKeys)).getD [])).flatten ++
      db.inner.staleKeys version

/-- Stale-key validation and command construction inside `apply_patch`
(lines 233-247), with `none` standing for a panicking assertion:
`stale_keys_by_version` must be empty or a singleton keyed by the updated
version, and the extracted stale keys default to `[]`. -/
def buildCommand (updatedVersion : Nat) (patch : PatchSet) (pp : PartialPatchSet) :
    Option PersistenceCommand :=
  if patch.staleKeysByVersion.isEmpty ∨
      (patch.staleKeysByVersion.length = 1 ∧
        (assocFind patch.staleKeysByVersion updatedVersion).isSome) then
    some { manifest := patch.manifest, patch := pp,
           staleKeys := (assocFind patch.staleKeysByVersion updatedVersion).getD [] }
  else none

/-- The validation part of `apply_patch` (lines 201-247): a present
`updated_version` must equal the adapter's and `patches_by_version` must hold
exactly that entry; an absent one forces `patches_by_version` to be empty
(manifest-only update, buffering `PartialPatchSet::empty()`). -/
def ParallelDatabase.extractCommand (updatedVersion : Nat) (patch : PatchSet) :
    Option PersistenceCommand :=
  match patch.updatedVersion with
  | some uv =>
    if uv = updatedVersion then
      if patch.patchesByVersion.length = 1 then
        match assocFind patch.patchesByVersion uv with
        | some pp => buildCommand updatedVersion patch pp
        | none => none
      else none
    else none
  | none =>
    if patch.patchesByVersion.isEmpty then
      buildCommand updatedVersion patch PartialPatchSet.empty
    else none

/-- `apply_patch` (lines 201-257): validate, build the persistence command,
send it, and append its weak reference at the mirror's tail.  (Garbage
collection of dead entries does not change which commands are live.) -/
def ParallelDatabase.applyPatch (db : ParallelDatabase) (patch : PatchSet) :
    Option ParallelDatabase :=
  (ParallelDatabase.extractCommand db.updatedVersion patch).map
    (fun c => { db with mirror := db.mirror ++ [some c] })

/-- The `PatchSet` reconstituted by the persistence thread
(`run_persistence`, lines 70-76). -/
def reconstitutePatch (updatedVersion : Nat) (c : PersistenceCommand) : PatchSet :=
  { manifest := c.manifest
    patchesByVersion := [(updatedVersion, c.patch)]
    updatedVersion := some updatedVersion
    staleKeysByVersion := [(updatedVersion, c.staleKeys)] }

/-- One persister step (`run_persistence`, lines 67-79): apply the
reconstituted patch to the store. -/
def Store.applyCommand (s : Store) (updatedVersion : Nat) (c : PersistenceCommand) :
    Store :=
  s.applyPatch (reconstitutePatch updatedVersion c)

/-- The persister's cumulative effect after consuming `cs` in FIFO order. -/
def Store.applyCommands (s : Store) (updatedVersion : Nat)
    (cs : List PersistenceCommand) : Store :=
  cs.foldl (fun acc c => acc.applyCommand updatedVersion c) s

/-- The weak mirror once the persister has applied the first `p` commands of
`cs`: dead entries for the applied ones, live entries for the rest. -/
def mirrorOf (cs : List PersistenceCommand) (p : Nat) :
    List (Option PersistenceCommand) :=
  List.replicate p none ++ (cs.drop p).map some

/-- Whole-subsystem state for the persistence lifecycle: the base store, all
submitted commands and how many of them the persister has applied. -/
structure ParallelSystem where
  base : Store
  updatedVersion : Nat
  cmds : List PersistenceCommand
  persisted : Nat
  deriving DecidableEq

/-- The inner store as the persister has advanced it. -/
def ParallelSystem.innerStore (s : ParallelSystem) : Store :=
  Store.applyCommands s.base s.updatedVersion (s.cmds.take s.persisted)

/-- The adapter view of a system state. -/
def ParallelSystem.view (s : ParallelSystem) (bufferCapacity : Nat) : ParallelDatabase :=
  { inner := s.innerStore, updatedVersion := s.updatedVersion,
    bufferCapacity := bufferCapacity, mirror := mirrorOf s.cmds s.persisted }

/-- `wait_sync` (lines 88-107): poll until every weak mirror entry is dead and
removed; the net effect is that the persister has applied every submitted
command and the mirror is empty. -/
def ParallelSystem.waitSync (s : ParallelSystem) : ParallelSystem :=
  { base := Store.applyCommands s.base s.updatedVersion s.cmds,
    updatedVersion := s.updatedVersion, cmds := [], persisted := 0 }

/-- `prune` (lines 289-293): `wait_sync` first, then delegate to the store.
The second component records every invocation of the inner store's `prune` as
a pair (store state at the call, argument). -/
def ParallelSystem.prune (s : ParallelSystem) (patch : PrunePatchSet) :
    ParallelSystem × List (Store × PrunePatchSet) :=
  let synced := s.waitSync
  ({ synced with base := synced.base.prune patch }, [(synced.base, patch)])

/-- One transition of the bounded persistence channel created by
`ParallelDatabase::new` (`mpsc::sync_channel(buffer_capacity)`, line 47):
`apply_patch` can append a command only when the queue holds fewer than
`bufferCapacity` entries (a full queue blocks the sender, line 249), and the
persister consumes from the head (lines 67-79). -/
inductive ChannelStep (bufferCapacity : Nat) :
    List PersistenceCommand → List PersistenceCommand → Prop where
  | submit (c : PersistenceCommand) (chan : List PersistenceCommand)
      (h : chan.length < bufferCapacity) :
      ChannelStep bufferCapacity chan (chan ++ [c])
  | consume (c : PersistenceCommand) (chan : List PersistenceCommand) :
      ChannelStep bufferCapacity (c :: chan) chan

/-- Channel states reachable from the empty queue set up at construction. -/
inductive ChannelReachable (bufferCapacity : Nat) : List PersistenceCommand → Prop where
  | init : ChannelReachable bufferCapacity []
  | step {s t : List PersistenceCommand} : ChannelReachable bufferCapacity s →
      ChannelStep bufferCapacity s t → ChannelReachable bufferCapacity t

/-- `MaybeParallel` (lines 296-301). -/
inductive MaybeParallel where
  | sequential (db : Store) : MaybeParallel
  | parallel (db : ParallelDatabase) : MaybeParallel
  deriving DecidableEq

/-- `MaybeParallel::parallelize` (lines 318-328): only a `Sequential` value is
replaced by a fresh adapter. -/
def MaybeParallel.parallelize (m : MaybeParallel) (updatedVersion bufferCapacity : Nat) :
    MaybeParallel :=
  match m with
  | .sequential db => .parallel (ParallelDatabase.new db updatedVersion bufferCapacity)
  | .parallel db => .parallel db

/-- The newest still-live buffered node for `key`: first hit when the mirror
is scanned tail to head. -/
def bufferedNode (mirror : List (Option PersistenceCommand)) (key : NodeKey) :
    Option Node :=
  mirror.reverse.findSome? (fun oc => oc.bind (fun c => assocFind c.patch.nodes key))

/-- Left-biased choice on optional values (buffer hit, else store answer). -/
def orElseO {α : Type} (a b : Option α) : Option α :=
  match a with | some x => some x | none => b

/-- Two stores that answer every read of the adapter's capability set the same
way: equal manifests and equal per-version partial patches. -/
def Store.ReadEquiv (s t : Store) : Prop :=
  s.manifest = t.manifest ∧ ∀ v, s.versionPatch v = t.versionPatch v

/-! ### Concrete inputs used by the closed evaluations -/

def keyA : NodeKey := { version := 10, nibbles := 1 }

def keyB : NodeKey := { version := 10, nibbles := 2 }

def keyOld : NodeKey := { version := 7, nibbles := 3 }

/-- A buffered command with an empty stale-key list. -/
def cmdNoStale : PersistenceCommand :=
  { manifest := { versionCount := 10 },
    patch := { root := some { leafCount := 1, node := Node.leaf 1 },
               nodes := [(keyA, Node.leaf 1)] },
    staleKeys := [] }

/-- A buffered command carrying a non-empty stale-key list. -/
def cmdStale : PersistenceCommand :=
  { manifest := { versionCount := 11 },
    patch := { root := some { leafCount := 2, node := Node.leaf 2 },
               nodes := [(keyA, Node.leaf 2)] },
    staleKeys := [keyB] }

def emptyStore : Store := { manifest := none, patches := [], staleKeysByVersion := [] }

/-- A store pre-populated at version 7. -/
def oldStore : Store :=
  { manifest := some { versionCount := 7 },
    patches := [(7, { root := some { leafCount := 5, node := Node.internal 0 },
                      nodes := [(keyOld, Node.leaf 9)] })],
    staleKeysByVersion := [(7, [keyOld])] }

/-- Adapter with one live command whose stale-key list is non-empty. -/
def dbStaleLive : ParallelDatabase :=
  { inner := emptyStore, updatedVersion := 10, bufferCapacity := 4,
    mirror := [some cmdStale] }

/-- Adapter with one live command whose stale-key list is empty. -/
def dbNoStaleLive : ParallelDatabase :=
  { inner := emptyStore, updatedVersion := 10, bufferCapacity := 4,
    mirror := [some cmdNoStale] }

/-- Adapter whose mirror holds a live entry followed by a dead one — the tail
entry is dead while an earlier command is still live. -/
def dbLiveThenDead : ParallelDatabase :=
  { inner := oldStore, updatedVersion := 10, bufferCapacity := 4,
    mirror := [some cmdNoStale, none] }

/-- Adapter whose dead entries form a mirror head, as FIFO persistence
produces. -/
def dbDeadThenLive : ParallelDatabase :=
  { inner := oldStore, updatedVersion := 10, bufferCapacity := 4,
    mirror := [none, some cmdNoStale] }

/-- Adapter with two live commands, both binding `keyA`. -/
def dbTwo : ParallelDatabase :=
  { inner := oldStore, updatedVersion := 10, bufferCapacity := 4,
    mirror := [some cmdNoStale, some cmdStale] }

def keysW : List (NodeKey × Bool) := [(keyA, true), (keyOld, true)]

/-- A valid single-version update patch for version 10. -/
def patchW1 : PatchSet :=
  { manifest := { versionCount := 10 },
    patchesByVersion := [(10, { root := some { leafCount := 1, node := Node.leaf 1 },
                                nodes := [(keyA, Node.leaf 1)] })],
    updatedVersion := some 10,
    staleKeysByVersion := [(10, [keyB])] }

/-- A valid manifest-only patch. -/
def patchW2 : PatchSet :=
  { manifest := { versionCount := 10 },
    patchesByVersion := [],
    updatedVersion := none,
    staleKeysByVersion := [] }

def scriptW : List PatchSet := [patchW1, patchW2]

/-! ### Basic facts about the helper operations -/

theorem orElseO_none_left {α : Type} (b : Option α) : orElseO none b = b := rfl

theorem orElseO_none_right {α : Type} (a : Option α) : orElseO a none = a := by
  cases a <;> rfl

theorem orElseO_assoc {α : Type} (a b c : Option α) :
    orElseO (orElseO a b) c = orElseO a (orElseO b c) := by
  cases a <;> rfl

theorem findSome?_append {α β : Type} (f : α → Option β) (l₁ l₂ : List α) :
    (l₁ ++ l₂).findSome? f = orElseO (l₁.findSome? f) (l₂.findSome? f) := by
  induction l₁ with
  | nil => rfl
  | cons a l ih =>
      simp only [List.cons_append, List.findSome?_cons]
      cases f a <;> simp [ih, orElseO]

theorem findSome?_map {α β γ : Type} (g : α → β) (f : β → Option γ) (l : List α) :
    (l.map g).findSome? f = l.findSome? (fun a => f (g a)) := by
  induction l with
  | nil => rfl
  | cons a l ih =>
      simp only [List.map_cons, List.findSome?_cons]
      cases f (g a) <;> simp [ih]

theorem findSome?_singleton {α β : Type} (f : α → Option β) (a : α) :
    List.findSome? f [a] = f a := by
  simp only [List.findSome?_cons]
  cases f a <;> rfl

theorem findSome?_of_all_none {α β : Type} {f : α → Option β} {l : List α}
    (h : ∀ a ∈ l, f a = none) : l.findSome? f = none := by
  induction l with
  | nil => rfl
  | cons a l ih =>
      simp only [List.findSome?_cons, h a (List.mem_cons_self a l)]
      exact ih (fun x hx => h x (List.mem_cons_of_mem _ hx))

theorem findSome?_replicate_none {α β : Type} {f : α → Option β} {a : α} (p : Nat)
    (h : f a = none) : (List.replicate p a).findSome? f = none :=
  findSome?_of_all_none (fun _x hx => (List.eq_of_mem_replicate hx) ▸ h)

theorem assocFind_cons_self {α β : Type} [DecidableEq α] (k : α) (b : β)
    (l : List (α × β)) : assocFind ((k, b) :: l) k = some b := by
  simp [assocFind, List.find?_cons_of_pos]

theorem assocFind_cons_ne {α β : Type} [DecidableEq α] {k k' : α} (b : β)
    (l : List (α × β)) (h : k' ≠ k) : assocFind ((k, b) :: l) k' = assocFind l k' := by
  simp only [assocFind]
  rw [List.find?_cons_of_neg]
  simp only [decide_eq_true_eq]
  exact fun hk => h hk.symm

theorem assocFind_append {α β : Type} [DecidableEq α] (l₁ l₂ : List (α × β)) (k : α) :
    assocFind (l₁ ++ l₂) k = orElseO (assocFind l₁ k) (assocFind l₂ k) := by
  induction l₁ with
  | nil => rfl
  | cons a l ih =>
      by_cases h : a.1 = k
      · obtain ⟨a₁, a₂⟩ := a
        subst h
        simp [assocFind_cons_self, orElseO]
      · obtain ⟨a₁, a₂⟩ := a
        simp only [List.cons_append]
        rw [assocFind_cons_ne a₂ _ (fun hk => h hk.symm),
          assocFind_cons_ne a₂ _ (fun hk => h hk.symm), ih]

theorem assocFind_singleton {α β : Type} [DecidableEq α] (k k' : α) (b : β) :
    assocFind [(k, b)] k' = if k' = k then some b else none := by
  by_cases h : k' = k
  · subst h
    simp [assocFind_cons_self]
  · simp only [h, if_false]
    rw [assocFind_cons_ne b _ h]
    rfl

theorem assocFind_eq_none_of_not_mem {α β : Type} [DecidableEq α] {l : List (α × β)}
    {k : α} (h : k ∉ l.map Prod.fst) : assocFind l k = none := by
  induction l with
  | nil => rfl
  | cons a l ih =>
      obtain ⟨a₁, a₂⟩ := a
      simp only [List.map_cons, List.mem_cons, not_or] at h
      rw [assocFind_cons_ne a₂ l h.1]
      exact ih h.2

theorem assocFind_of_mem_nodup {α β : Type} [DecidableEq α] {l : List (α × β)}
    {k : α} {b : β} (hmem : (k, b) ∈ l) (hnd : (l.map Prod.fst).Nodup) :
    assocFind l k = some b := by
  induction l with
  | nil => cases hmem
  | cons a l ih =>
      simp only [List.map_cons, List.nodup_cons] at hnd
      rcases List.mem_cons.mp hmem with heq | htail
      · subst heq
        exact assocFind_cons_self k b l
      · obtain ⟨a₁, a₂⟩ := a
        have hne : k ≠ a₁ := by
          rintro rfl
          exact hnd.1 (List.mem_map.mpr ⟨(k, b), htail, rfl⟩)
        rw [assocFind_cons_ne a₂ _ hne]
        exact ih htail hnd.2

theorem assocFind_mem {α β : Type} [DecidableEq α] {l : List (α × β)} {k : α} {b : β}
    (h : assocFind l k = some b) : (k, b) ∈ l := by
  simp only [assocFind, Option.map_eq_some'] at h
  obtain ⟨p, hfind, hsnd⟩ := h
  have hmem := List.mem_of_find?_eq_some hfind
  have hpred := List.find?_some hfind
  simp only [decide_eq_true_eq] at hpred
  obtain ⟨p₁, p₂⟩ := p
  simp only at hpred hsnd
  subst hpred hsnd
  exact hmem

/-! ### Effect of one persister step on the store -/

theorem applyCommand_patches (s : Store) (V : Nat) (c : PersistenceCommand) :
    (s.applyCommand V c).patches = (V, (s.versionPatch V).merge c.patch) :: s.patches := rfl

theorem applyCommand_manifest (s : Store) (V : Nat) (c : PersistenceCommand) :
    (s.applyCommand V c).manifest = some c.manifest := rfl

theorem versionPatch_applyCommand_self (s : Store) (V : Nat) (c : PersistenceCommand) :
    (s.applyCommand V c).versionPatch V = (s.versionPatch V).merge c.patch := by
  simp [Store.versionPatch, applyCommand_patches, assocFind_cons_self]

theorem versionPatch_applyCommand_other (s : Store) (V : Nat) (c : PersistenceCommand)
    {w : Nat} (h : w ≠ V) : (s.applyCommand V c).versionPatch w = s.versionPatch w := by
  simp only [Store.versionPatch, applyCommand_patches]
  rw [assocFind_cons_ne _ _ h]

theorem applyCommands_nil (s : Store) (V : Nat) : s.applyCommands V [] = s := rfl

theorem applyCommands_cons (s : Store) (V : Nat) (c : PersistenceCommand)
    (cs : List PersistenceCommand) :
    s.applyCommands V (c :: cs) = (s.applyCommand V c).applyCommands V cs := rfl

theorem manifest_applyCommands (s : Store) (V : Nat) (cs : List PersistenceCommand) :
    (s.applyCommands V cs).manifest =
      match cs.getLast? with
      | some c => some c.manifest
      | none => s.manifest := by
  induction cs generalizing s with
  | nil => rfl
  | cons c cs ih =>
      rw [applyCommands_cons, ih]
      cases cs with
      | nil => rfl
      | cons d ds =>
          rw [List.getLast?_cons_cons]
          have hsome : ((d :: ds).getLast?).isSome := by
            rw [List.getLast?_isSome]
            exact List.cons_ne_nil d ds
          obtain ⟨e, he⟩ := Option.isSome_iff_exists.mp hsome
          rw [he]

theorem tryRoot_applyCommands_self (s : Store) (V : Nat) (cs : List PersistenceCommand) :
    (s.applyCommands V cs).tryRoot V =
      orElseO (cs.reverse.findSome? (fun c => c.patch.root)) (s.tryRoot V) := by
  induction cs generalizing s with
  | nil => rfl
  | cons c cs ih =>
      rw [applyCommands_cons, ih, List.reverse_cons, findSome?_append,
        findSome?_singleton, orElseO_assoc]
      have hstep : (s.applyCommand V c).tryRoot V = orElseO c.patch.root (s.tryRoot V) := by
        simp only [Store.tryRoot, versionPatch_applyCommand_self, PartialPatchSet.merge]
        cases c.patch.root <;> rfl
      rw [hstep]

theorem tryRoot_applyCommands_other (s : Store) (V : Nat) (cs : List PersistenceCommand)
    {w : Nat} (h : w ≠ V) : (s.applyCommands V cs).tryRoot w = s.tryRoot w := by
  induction cs generalizing s with
  | nil => rfl
  | cons c cs ih =>
      rw [applyCommands_cons, ih]
      simp only [Store.tryRoot, versionPatch_applyCommand_other s V c h]

theorem tryTreeNode_applyCommands_self (s : Store) (V : Nat)
    (cs : List PersistenceCommand) (key : NodeKey) (b : Bool) (hk : key.version = V) :
    (s.applyCommands V cs).tryTreeNode key b =
      orElseO (cs.reverse.findSome? (fun c => assocFind c.patch.nodes key))
        (s.tryTreeNode key b) := by
  induction cs generalizing s with
  | nil => rfl
  | cons c cs ih =>
      rw [applyCommands_cons, ih, List.reverse_cons, findSome?_append,
        findSome?_singleton, orElseO_assoc]
      have hstep : (s.applyCommand V c).tryTreeNode key b =
          orElseO (assocFind c.patch.nodes key) (s.tryTreeNode key b) := by
        simp only [Store.tryTreeNode, hk, versionPatch_applyCommand_self,
          PartialPatchSet.merge, assocFind_append]
      rw [hstep]

theorem tryTreeNode_applyCommands_other (s : Store) (V : Nat)
    (cs : List PersistenceCommand) (key : NodeKey) (b : Bool) (hk : key.version ≠ V) :
    (s.applyCommands V cs).tryTreeNode key b = s.tryTreeNode key b := by
  induction cs generalizing s with
  | nil => rfl
  | cons c cs ih =>
      rw [applyCommands_cons, ih]
      simp only [Store.tryTreeNode, versionPatch_applyCommand_other s V c hk]

/-! ### Scanning the weak mirror -/

theorem mirrorOf_reverse_findSome? {β : Type} (cs : List PersistenceCommand) (p : Nat)
    (f : PersistenceCommand → Option β) :
    (mirrorOf cs p).reverse.findSome? (fun oc => oc.bind f) =
      (cs.drop p).reverse.findSome? f := by
  rw [mirrorOf, List.reverse_append, findSome?_append, ← List.map_reverse, findSome?_map]
  have hrep : ((List.replicate p (none : Option PersistenceCommand)).reverse.findSome?
      (fun oc => oc.bind f)) = none := by
    rw [List.reverse_replicate]
    exact findSome?_replicate_none p rfl
  rw [hrep, orElseO_none_right]
  rfl

theorem reverse_split_take_drop {α : Type} (l : List α) (p : Nat) :
    l.reverse = (l.drop p).reverse ++ (l.take p).reverse := by
  rw [← List.reverse_append, List.take_append_drop]

/-! ### Refinement of the single-value reads against the fully persisted store -/

theorem replicate_none_getLast?_bind (p : Nat) :
    (List.replicate p (none : Option PersistenceCommand)).getLast?.bind id = none := by
  cases p with
  | zero => rfl
  | succ n =>
      rw [List.replicate_succ', List.getLast?_concat]
      rfl

theorem view_tryManifest (base : Store) (V B p : Nat) (cs : List PersistenceCommand) :
    ((ParallelSystem.mk base V cs p).view B).tryManifest =
      (base.applyCommands V cs).tryManifest := by
  rcases (cs.drop p).eq_nil_or_concat with hdrop | ⟨l, a, hdrop⟩
  · have hlen : cs.length ≤ p := List.drop_eq_nil_iff.mp hdrop
    have htake : cs.take p = cs := List.take_of_length_le hlen
    simp only [ParallelSystem.view, ParallelSystem.innerStore, ParallelDatabase.tryManifest,
      mirrorOf, hdrop, htake, List.map_nil, List.append_nil]
    rw [replicate_none_getLast?_bind]
  · rw [List.concat_eq_append] at hdrop
    have hcs : cs = (cs.take p ++ l) ++ [a] := by
      rw [List.append_assoc, ← hdrop, List.take_append_drop]
    have hlast : cs.getLast? = some a := by
      rw [hcs]; exact List.getLast?_concat _
    simp only [ParallelSystem.view, ParallelSystem.innerStore, ParallelDatabase.tryManifest,
      mirrorOf, hdrop, List.map_append, List.map_cons, List.map_nil]
    rw [← List.append_assoc, List.getLast?_concat]
    show some a.manifest = (base.applyCommands V cs).tryManifest
    rw [Store.tryManifest, manifest_applyCommands, hlast]

theorem view_tryRoot (base : Store) (V B p : Nat) (cs : List PersistenceCommand)
    (v : Nat) :
    ((ParallelSystem.mk base V cs p).view B).tryRoot v =
      (base.applyCommands V cs).tryRoot v := by
  by_cases hv : v = V
  · subst hv
    simp only [ParallelSystem.view, ParallelSystem.innerStore, ParallelDatabase.tryRoot]
    rw [if_neg (fun hne => hne rfl)]
    rw [mirrorOf_reverse_findSome?, tryRoot_applyCommands_self, tryRoot_applyCommands_self,
      reverse_split_take_drop cs p, findSome?_append]
    cases h : (cs.drop p).reverse.findSome? (fun c => c.patch.root) <;> simp [h, orElseO]
  · simp only [ParallelSystem.view, ParallelSystem.innerStore, ParallelDatabase.tryRoot]
    rw [if_pos hv]
    rw [tryRoot_applyCommands_other _ _ _ hv, tryRoot_applyCommands_other _ _ _ hv]

theorem view_tryTreeNode (base : Store) (V B p : Nat) (cs : List PersistenceCommand)
    (key : NodeKey) (b : Bool) :
    ((ParallelSystem.mk base V cs p).view B).tryTreeNode key b =
      (base.applyCommands V cs).tryTreeNode key b := by
  by_cases hk : key.version = V
  · simp only [ParallelSystem.view, ParallelSystem.innerStore, ParallelDatabase.tryTreeNode]
    rw [if_neg (fun hne => hne hk)]
    rw [mirrorOf_reverse_findSome?, tryTreeNode_applyCommands_self base V _ key b hk,
      tryTreeNode_applyCommands_self _ V _ key b hk,
      reverse_split_take_drop cs p, findSome?_append]
    cases h : (cs.drop p).reverse.findSome? (fun c => assocFind c.patch.nodes key) <;>
      simp [h, orElseO]
  · simp only [ParallelSystem.view, ParallelSystem.innerStore, ParallelDatabase.tryTreeNode]
    rw [if_pos hk]
    rw [tryTreeNode_applyCommands_other _ _ _ _ _ hk,
      tryTreeNode_applyCommands_other _ _ _ _ _ hk]

/-! ### Pointwise characterisation of `tree_nodes` -/

theorem fillSlots_length (c : PersistenceCommand) (keys : List (NodeKey × Bool))
    (nodes : List (Option Node)) (h : nodes.length = keys.length) :
    (fillSlots c keys nodes).length = keys.length := by
  simp [fillSlots, h]

theorem fillSlots_getElem? (c : PersistenceCommand) (keys : List (NodeKey × Bool))
    (nodes : List (Option Node)) (i : Nat) (kb : NodeKey × Bool) (v : Option Node)
    (hk : keys[i]? = some kb) (hv : nodes[i]? = some v) :
    (fillSlots c keys nodes)[i]? = some (orElseO v (assocFind c.patch.nodes kb.1)) := by
  rw [fillSlots, List.getElem?_zipWith', hv, hk]
  cases v <;> rfl

theorem foldFill_getElem? (keys : List (NodeKey × Bool))
    (l : List (Option PersistenceCommand)) (init : List (Option Node)) (i : Nat)
    (kb : NodeKey × Bool) (v : Option Node) (hlen : init.length = keys.length)
    (hk : keys[i]? = some kb) (hv : init[i]? = some v) :
    (l.foldl (fun nodes oc => match oc with
        | some c => fillSlots c keys nodes
        | none => nodes) init)[i]? =
      some (orElseO v (l.findSome? (fun oc =>
        oc.bind (fun c => assocFind c.patch.nodes kb.1)))) := by
  induction l generalizing init v with
  | nil =>
      rw [List.foldl_nil, List.findSome?_nil, orElseO_none_right]
      exact hv
  | cons oc l ih =>
      rw [List.foldl_cons, List.findSome?_cons]
      cases oc with
      | none =>
          simp only [Option.none_bind]
          exact ih init v hlen hv
      | some c =>
          simp only [Option.some_bind]
          have hlen' : (fillSlots c keys init).length = keys.length :=
            fillSlots_length c keys init hlen
          have hv' : (fillSlots c keys init)[i]? =
              some (orElseO v (assocFind c.patch.nodes kb.1)) :=
            fillSlots_getElem? c keys init i kb v hk hv
          rw [ih (fillSlots c keys init) (orElseO v (assocFind c.patch.nodes kb.1))
            hlen' hv', orElseO_assoc]
          cases assocFind c.patch.nodes kb.1 <;> rfl

theorem bufferFill_length (mirror : List (Option PersistenceCommand))
    (keys : List (NodeKey × Bool)) : (bufferFill mirror keys).length = keys.length := by
  rw [bufferFill]
  have h : ∀ (l : List (Option PersistenceCommand)) (init : List (Option Node)),
      init.length = keys.length →
      (l.foldl (fun nodes oc => match oc with
        | some c => fillSlots c keys nodes
        | none => nodes) init).length = keys.length := by
    intro l
    induction l with
    | nil => intro init h; exact h
    | cons oc l ih =>
        intro init h
        rw [List.foldl_cons]
        cases oc with
        | none => exact ih init h
        | some c => exact ih _ (fillSlots_length c keys init h)
  exact h _ _ (List.length_replicate _ _)

theorem bufferFill_getElem? (mirror : List (Option PersistenceCommand))
    (keys : List (NodeKey × Bool)) (i : Nat) (kb : NodeKey × Bool)
    (hk : keys[i]? = some kb) :
    (bufferFill mirror keys)[i]? = some (bufferedNode mirror kb.1) := by
  have hi : i < keys.length := by
    rcases List.getElem?_eq_some.mp hk with ⟨h, _⟩
    exact h
  have hinit : (List.replicate keys.length (none : Option Node))[i]? = some none := by
    rw [List.getElem?_replicate]
    simp [hi]
  rw [bufferFill, bufferedNode,
    foldFill_getElem? keys mirror.reverse _ i kb none (List.length_replicate _ _) hk hinit,
    orElseO_none_left]

theorem foldlSet_length (pairs : List (Nat × Option Node)) (nodes : List (Option Node)) :
    (pairs.foldl (fun acc iv => acc.set iv.1 iv.2) nodes).length = nodes.length := by
  induction pairs generalizing nodes with
  | nil => rfl
  | cons p rest ih => rw [List.foldl_cons, ih, List.length_set]

theorem foldlSet_getElem? (pairs : List (Nat × Option Node)) (nodes : List (Option Node))
    (i : Nat) (hnd : (pairs.map Prod.fst).Nodup)
    (hlt : ∀ p ∈ pairs, p.1 < nodes.length) :
    (pairs.foldl (fun acc iv => acc.set iv.1 iv.2) nodes)[i]? =
      match assocFind pairs i with
      | some v => some v
      | none => nodes[i]? := by
  induction pairs generalizing nodes with
  | nil => rfl
  | cons jw rest ih =>
      obtain ⟨j, w⟩ := jw
      simp only [List.map_cons, List.nodup_cons] at hnd
      rw [List.foldl_cons]
      have hlt' : ∀ p ∈ rest, p.1 < (nodes.set j w).length := by
        intro p hp
        rw [List.length_set]
        exact hlt p (List.mem_cons_of_mem _ hp)
      rw [ih (nodes.set j w) hnd.2 hlt']
      by_cases hij : i = j
      · subst hij
        have hrest : assocFind rest i = none :=
          assocFind_eq_none_of_not_mem hnd.1
        rw [hrest, assocFind_cons_self]
        exact List.getElem?_set_eq_of_lt w (hlt (i, w) (List.mem_cons_self _ _))
      · rw [assocFind_cons_ne w rest hij, List.getElem?_set_ne (fun h => hij h.symm)]

theorem zip_map_same {α β γ : Type} (f : α → β) (g : α → γ) (l : List α) :
    (l.map f).zip (l.map g) = l.map (fun x => (f x, g x)) := by
  induction l with
  | nil => rfl
  | cons a l ih => simp [ih]

theorem getD_none_eq (l : List (Option Node)) (i : Nat) :
    l.getD i none = (l[i]?).getD none := by
  simp [List.getD]

theorem treeNodes_length (db : ParallelDatabase) (keys : List (NodeKey × Bool)) :
    (db.treeNodes keys).length = keys.length := by
  simp only [ParallelDatabase.treeNodes]
  rw [foldlSet_length, bufferFill_length]

theorem treeNodes_getElem? (db : ParallelDatabase) (keys : List (NodeKey × Bool))
    (i : Nat) (kb : NodeKey × Bool) (hk : keys[i]? = some kb) :
    (db.treeNodes keys)[i]? =
      some (orElseO (bufferedNode db.mirror kb.1) (db.inner.tryTreeNode kb.1 kb.2)) := by
  have hi : i < keys.length := by
    rcases List.getElem?_eq_some.mp hk with ⟨h, _⟩
    exact h
  have hnlen := bufferFill_length db.mirror keys
  have hslot := bufferFill_getElem? db.mirror keys i kb hk
  simp only [ParallelDatabase.treeNodes, Store.treeNodes, List.map_map]
  rw [zip_map_same]
  simp only [Function.comp]
  have hnd : (((keys.enum.filter
      (fun ik => ((bufferFill db.mirror keys).getD ik.1 none).isNone)).map
        (fun x => (Prod.fst x,
          db.inner.tryTreeNode (Prod.snd x).1 (Prod.snd x).2))).map Prod.fst).Nodup := by
    have heq : ((keys.enum.filter
        (fun ik => ((bufferFill db.mirror keys).getD ik.1 none).isNone)).map
          (fun x => (Prod.fst x,
            db.inner.tryTreeNode (Prod.snd x).1 (Prod.snd x).2))).map Prod.fst =
        (keys.enum.filter
          (fun ik => ((bufferFill db.mirror keys).getD ik.1 none).isNone)).map Prod.fst := by
      simp [List.map_map, Function.comp]
    rw [heq]
    exact ((List.filter_sublist _).map Prod.fst).nodup (List.nodup_enum_map_fst keys)
  have hlt : ∀ p ∈ (keys.enum.filter
      (fun ik => ((bufferFill db.mirror keys).getD ik.1 none).isNone)).map
        (fun x => (Prod.fst x,
          db.inner.tryTreeNode (Prod.snd x).1 (Prod.snd x).2)),
      p.1 < (bufferFill db.mirror keys).length := by
    intro p hp
    rcases List.mem_map.mp hp with ⟨ik, hik, rfl⟩
    have hmem : ik ∈ keys.enum := List.mem_of_mem_filter hik
    have hbound : ik.1 < keys.length := by
      have := List.mem_enum_iff_getElem?.mp hmem
      rcases List.getElem?_eq_some.mp this with ⟨h, _⟩
      exact h
    rw [hnlen]
    exact hbound
  rw [foldlSet_getElem? _ _ i hnd hlt]
  cases hbuf : bufferedNode db.mirror kb.1 with
  | none =>
      have hcond : ((bufferFill db.mirror keys).getD i none).isNone = true := by
        rw [getD_none_eq, hslot, hbuf]
        rfl
      have hmemEnum : (i, kb) ∈ keys.enum := List.mem_enum_iff_getElem?.mpr hk
      have hmemFilter : (i, kb) ∈ keys.enum.filter
          (fun ik => ((bufferFill db.mirror keys).getD ik.1 none).isNone) :=
        List.mem_filter.mpr ⟨hmemEnum, hcond⟩
      have hmemPairs : (i, db.inner.tryTreeNode kb.1 kb.2) ∈
          (keys.enum.filter
            (fun ik => ((bufferFill db.mirror keys).getD ik.1 none).isNone)).map
              (fun x => (Prod.fst x,
                db.inner.tryTreeNode (Prod.snd x).1 (Prod.snd x).2)) :=
        List.mem_map.mpr ⟨(i, kb), hmemFilter, rfl⟩
      rw [assocFind_of_mem_nodup hmemPairs hnd]
      rfl
  | some n =>
      have hnone : assocFind ((keys.enum.filter
          (fun ik => ((bufferFill db.mirror keys).getD ik.1 none).isNone)).map
            (fun x => (Prod.fst x,
              db.inner.tryTreeNode (Prod.snd x).1 (Prod.snd x).2))) i = none := by
        apply assocFind_eq_none_of_not_mem
        intro hmem
        rcases List.mem_map.mp hmem with ⟨p, hp, hpf⟩
        rcases List.mem_map.mp hp with ⟨ik, hik, rfl⟩
        have hfst : ik.1 = i := hpf
        have hcond := (List.mem_filter.mp hik).2
        rw [hfst, getD_none_eq, hslot, hbuf] at hcond
        simp at hcond
      rw [hnone, hslot]
      simp [orElseO, hbuf]

theorem bufferedNode_eq_none_of_version_ne (cs : List PersistenceCommand) (p : Nat)
    (V : Nat) (hwf : ∀ c ∈ cs, ∀ kn ∈ c.patch.nodes, kn.1.version = V)
    (k : NodeKey) (hk : k.version ≠ V) : bufferedNode (mirrorOf cs p) k = none := by
  rw [bufferedNode]
  apply findSome?_of_all_none
  intro oc hoc
  rw [List.mem_reverse] at hoc
  cases oc with
  | none => rfl
  | some c =>
      have hc : c ∈ cs := by
        rcases List.mem_append.mp hoc with hrep | hmap
        · cases (List.eq_of_mem_replicate hrep)
        · rcases List.mem_map.mp hmap with ⟨d, hd, hde⟩
          cases hde
          exact List.mem_of_mem_drop hd
      have : assocFind c.patch.nodes k = none := by
        apply assocFind_eq_none_of_not_mem
        intro hmem
        rcases List.mem_map.mp hmem with ⟨kn, hkn, rfl⟩
        exact hk (hwf c hc kn hkn)
      simp [this]

theorem view_slot_eq (base : Store) (V p : Nat) (cs : List PersistenceCommand)
    (hwf : ∀ c ∈ cs, ∀ kn ∈ c.patch.nodes, kn.1.version = V) (k : NodeKey) (b : Bool) :
    orElseO (bufferedNode (mirrorOf cs p) k)
      ((Store.applyCommands base V (cs.take p)).tryTreeNode k b) =
      (base.applyCommands V cs).tryTreeNode k b := by
  by_cases hk : k.version = V
  · rw [bufferedNode, mirrorOf_reverse_findSome?,
      tryTreeNode_applyCommands_self base V _ k b hk,
      tryTreeNode_applyCommands_self base V cs k b hk, reverse_split_take_drop cs p,
      findSome?_append, orElseO_assoc]
  · rw [bufferedNode_eq_none_of_version_ne cs p V hwf k hk, orElseO_none_left,
      tryTreeNode_applyCommands_other _ _ _ _ _ hk,
      tryTreeNode_applyCommands_other _ _ _ _ _ hk]

theorem view_treeNodes (base : Store) (V B p : Nat) (cs : List PersistenceCommand)
    (hwf : ∀ c ∈ cs, ∀ kn ∈ c.patch.nodes, kn.1.version = V)
    (keys : List (NodeKey × Bool)) :
    ((ParallelSystem.mk base V cs p).view B).treeNodes keys =
      (base.applyCommands V cs).treeNodes keys := by
  apply List.ext_getElem?
  intro i
  by_cases hi : i < keys.length
  · have hk : keys[i]? = some keys[i] := List.getElem?_eq_getElem hi
    rw [treeNodes_getElem? _ keys i keys[i] hk, Store.treeNodes, List.getElem?_map, hk,
      Option.map_some']
    simp only [ParallelSystem.view, ParallelSystem.innerStore]
    rw [view_slot_eq base V p cs hwf]
  · have h1 : (((ParallelSystem.mk base V cs p).view B).treeNodes keys).length ≤ i := by
      rw [treeNodes_length]
      omega
    have h2 : ((base.applyCommands V cs).treeNodes keys).length ≤ i := by
      rw [Store.treeNodes, List.length_map]
      omega
    rw [List.getElem?_eq_none h1, List.getElem?_eq_none h2]

/-! ### Read-equivalence of stores and the persister's reconstitution -/

theorem readEquiv_refl (s : Store) : s.ReadEquiv s := ⟨rfl, fun _ => rfl⟩

theorem readEquiv_symm {s t : Store} (h : s.ReadEquiv t) : t.ReadEquiv s :=
  ⟨h.1.symm, fun v => (h.2 v).symm⟩

theorem readEquiv_trans {s t u : Store} (h1 : s.ReadEquiv t) (h2 : t.ReadEquiv u) :
    s.ReadEquiv u := ⟨h1.1.trans h2.1, fun v => (h1.2 v).trans (h2.2 v)⟩

theorem readEquiv_applyCommand {s t : Store} (V : Nat) (c : PersistenceCommand)
    (h : s.ReadEquiv t) : (s.applyCommand V c).ReadEquiv (t.applyCommand V c) := by
  constructor
  · rw [applyCommand_manifest, applyCommand_manifest]
  · intro v
    by_cases hv : v = V
    · subst hv
      rw [versionPatch_applyCommand_self, versionPatch_applyCommand_self, h.2]
    · rw [versionPatch_applyCommand_other s V c hv, versionPatch_applyCommand_other t V c hv]
      exact h.2 v

theorem readEquiv_applyCommands {s t : Store} (V : Nat) (cs : List PersistenceCommand)
    (h : s.ReadEquiv t) : (s.applyCommands V cs).ReadEquiv (t.applyCommands V cs) := by
  induction cs generalizing s t with
  | nil => exact h
  | cons c cs ih => exact ih (readEquiv_applyCommand V c h)

theorem assoc_single {β : Type} {l : List (Nat × β)} {V : Nat} {b : β}
    (hlen : l.length = 1) (hfind : assocFind l V = some b) : l = [(V, b)] := by
  rcases List.length_eq_one.mp hlen with ⟨a, rfl⟩
  obtain ⟨a₁, a₂⟩ := a
  rw [assocFind_singleton] at hfind
  by_cases hv : V = a₁
  · subst hv
    simp at hfind
    rw [hfind]
  · simp [hv] at hfind

theorem buildCommand_eq_some {V : Nat} {patch : PatchSet} {pp : PartialPatchSet}
    {c : PersistenceCommand} (h : buildCommand V patch pp = some c) :
    c.manifest = patch.manifest ∧ c.patch = pp ∧
    (patch.staleKeysByVersion = [] ∨ ∃ sk, patch.staleKeysByVersion = [(V, sk)]) := by
  unfold buildCommand at h
  split at h
  case isTrue hcond =>
    simp only [Option.some.injEq] at h
    subst h
    refine ⟨rfl, rfl, ?_⟩
    rcases hcond with hemp | ⟨hlen, hsome⟩
    · exact Or.inl (List.isEmpty_iff.mp hemp)
    · obtain ⟨sk, hsk⟩ := Option.isSome_iff_exists.mp hsome
      exact Or.inr ⟨sk, assoc_single hlen hsk⟩
  case isFalse => cases h

theorem buildCommand_isSome (V : Nat) (patch : PatchSet) (pp : PartialPatchSet) :
    (buildCommand V patch pp).isSome ↔
      (patch.staleKeysByVersion = [] ∨ ∃ sk, patch.staleKeysByVersion = [(V, sk)]) := by
  constructor
  · intro h
    obtain ⟨c, hc⟩ := Option.isSome_iff_exists.mp h
    exact (buildCommand_eq_some hc).2.2
  · intro h
    unfold buildCommand
    have hcond : patch.staleKeysByVersion.isEmpty ∨
        (patch.staleKeysByVersion.length = 1 ∧
          (assocFind patch.staleKeysByVersion V).isSome) := by
      rcases h with hemp | ⟨sk, hsk⟩
      · exact Or.inl (by rw [hemp]; rfl)
      · refine Or.inr ⟨by rw [hsk]; rfl, ?_⟩
        rw [hsk, assocFind_cons_self]
        rfl
    rw [if_pos hcond]
    rfl

theorem extractCommand_eq_some {V : Nat} {patch : PatchSet} {c : PersistenceCommand}
    (h : ParallelDatabase.extractCommand V patch = some c) :
    c.manifest = patch.manifest ∧
    ((patch.updatedVersion = some V ∧ patch.patchesByVersion = [(V, c.patch)]) ∨
      (patch.updatedVersion = none ∧ patch.patchesByVersion = [] ∧
        c.patch = PartialPatchSet.empty)) ∧
    (patch.staleKeysByVersion = [] ∨ ∃ sk, patch.staleKeysByVersion = [(V, sk)]) := by
  unfold ParallelDatabase.extractCommand at h
  cases huv : patch.updatedVersion with
  | some uv =>
      simp only [huv] at h
      by_cases h1 : uv = V
      · rw [if_pos h1] at h
        by_cases h2 : patch.patchesByVersion.length = 1
        · rw [if_pos h2] at h
          cases hpp : assocFind patch.patchesByVersion uv with
          | some pp =>
              simp only [hpp] at h
              obtain ⟨hman, hcp, hst⟩ := buildCommand_eq_some h
              subst hcp
              subst h1
              exact ⟨hman, Or.inl ⟨rfl, assoc_single h2 hpp⟩, hst⟩
          | none =>
              simp only [hpp] at h
              cases h
        · rw [if_neg h2] at h
          cases h
      · rw [if_neg h1] at h
        cases h
  | none =>
      simp only [huv] at h
      by_cases h1 : patch.patchesByVersion.isEmpty
      · rw [if_pos h1] at h
        obtain ⟨hman, hcp, hst⟩ := buildCommand_eq_some h
        exact ⟨hman, Or.inr ⟨rfl, List.isEmpty_iff.mp h1, hcp⟩, hst⟩
      · rw [if_neg h1] at h
        cases h

theorem applyPatch_manifest (s : Store) (patch : PatchSet) :
    (s.applyPatch patch).manifest = some patch.manifest := rfl

theorem staleFold_patches (l : List (Nat × List NodeKey)) (s : Store) :
    (l.foldl (fun acc vk => acc.addStaleKeys vk.1 vk.2) s).patches = s.patches := by
  induction l generalizing s with
  | nil => rfl
  | cons a l ih =>
      rw [List.foldl_cons, ih]
      rfl

theorem applyPatch_patches (s : Store) (patch : PatchSet) :
    (s.applyPatch patch).patches =
      (patch.patchesByVersion.foldl
        (fun acc vp => acc.applyVersionPatch vp.1 vp.2) s).patches := by
  simp only [Store.applyPatch]
  exact staleFold_patches _ _

theorem merge_empty (pp : PartialPatchSet) : pp.merge PartialPatchSet.empty = pp := by
  cases pp
  simp [PartialPatchSet.merge, PartialPatchSet.empty]

theorem readEquiv_applyPatch_extract {s : Store} {V : Nat} {patch : PatchSet}
    {c : PersistenceCommand} (h : ParallelDatabase.extractCommand V patch = some c) :
    (s.applyPatch patch).ReadEquiv (s.applyCommand V c) := by
  obtain ⟨hman, hcase, _⟩ := extractCommand_eq_some h
  constructor
  · rw [applyPatch_manifest, applyCommand_manifest, hman]
  · intro v
    rcases hcase with ⟨_, hp⟩ | ⟨_, hp, hcp⟩
    · have hpatches : (s.applyPatch patch).patches = (s.applyCommand V c).patches := by
        rw [applyPatch_patches, hp, applyCommand_patches]
        rfl
      rw [Store.versionPatch, Store.versionPatch, hpatches]
    · have hpatches : (s.applyPatch patch).patches = s.patches := by
        rw [applyPatch_patches, hp]
        rfl
      by_cases hv : v = V
      · subst hv
        rw [versionPatch_applyCommand_self, hcp, merge_empty, Store.versionPatch, hpatches]
        rfl
      · rw [versionPatch_applyCommand_other s V c hv, Store.versionPatch, Store.versionPatch,
          hpatches]

theorem readEquiv_scriptFold (base : Store) (V : Nat) (script : List PatchSet)
    (hvalid : ∀ patch ∈ script, (ParallelDatabase.extractCommand V patch).isSome) :
    (script.foldl Store.applyPatch base).ReadEquiv
      (base.applyCommands V (script.filterMap (ParallelDatabase.extractCommand V))) := by
  induction script generalizing base with
  | nil => exact readEquiv_refl base
  | cons patch rest ih =>
      obtain ⟨c, hc⟩ :=
        Option.isSome_iff_exists.mp (hvalid patch (List.mem_cons_self _ _))
      rw [List.foldl_cons, List.filterMap_cons, hc]
      have hrest : ∀ q ∈ rest, (ParallelDatabase.extractCommand V q).isSome :=
        fun q hq => hvalid q (List.mem_cons_of_mem _ hq)
      refine readEquiv_trans (ih (base.applyPatch patch) hrest) ?_
      rw [applyCommands_cons]
      exact readEquiv_applyCommands V _ (readEquiv_applyPatch_extract hc)

theorem reads_of_readEquiv {s t : Store} (h : s.ReadEquiv t) :
    s.tryManifest = t.tryManifest ∧ (∀ v, s.tryRoot v = t.tryRoot v) ∧
    (∀ k b, s.tryTreeNode k b = t.tryTreeNode k b) ∧
    (∀ keys, s.treeNodes keys = t.treeNodes keys) := by
  have hnode : ∀ k b, s.tryTreeNode k b = t.tryTreeNode k b := by
    intro k b
    rw [Store.tryTreeNode, Store.tryTreeNode, h.2 k.version]
  refine ⟨h.1, fun v => ?_, hnode, fun keys => ?_⟩
  · rw [Store.tryRoot, Store.tryRoot, h.2 v]
  · rw [Store.treeNodes, Store.treeNodes]
    have : (fun kb : NodeKey × Bool => s.tryTreeNode kb.1 kb.2) =
        fun kb => t.tryTreeNode kb.1 kb.2 :=
      funext fun kb => hnode kb.1 kb.2
    rw [this]

theorem extract_nodes_wf {V : Nat} {patch : PatchSet} {c : PersistenceCommand}
    (h : ParallelDatabase.extractCommand V patch = some c)
    (hwf : ∀ vp ∈ patch.patchesByVersion, ∀ kn ∈ vp.2.nodes, kn.1.version = V) :
    ∀ kn ∈ c.patch.nodes, kn.1.version = V := by
  rcases (extractCommand_eq_some h).2.1 with ⟨_, hp⟩ | ⟨_, _, hcp⟩
  · intro kn hkn
    refine hwf (V, c.patch) ?_ kn hkn
    rw [hp]
    exact List.mem_singleton_self _
  · rw [hcp]
    intro kn hkn
    cases hkn

theorem tryManifest_deadPrefix (db : ParallelDatabase) (p : Nat)
    (cs : List PersistenceCommand)
    (hm : db.mirror = List.replicate p none ++ cs.map some) :
    db.tryManifest =
      match db.mirror.reverse.findSome? (fun oc => oc.map (fun c => c.manifest)) with
      | some m => some m
      | none => db.inner.tryManifest := by
  rcases cs.eq_nil_or_concat with rfl | ⟨l, a, rfl⟩
  · rw [ParallelDatabase.tryManifest, hm]
    simp only [List.map_nil, List.append_nil]
    rw [replicate_none_getLast?_bind, List.reverse_replicate]
    rw [findSome?_replicate_none p rfl]
  · rw [List.concat_eq_append] at hm
    have hm' : db.mirror =
        (List.replicate p none ++ l.map some) ++ [some a] := by
      rw [hm, List.map_append, List.map_cons, List.map_nil, List.append_assoc]
    rw [ParallelDatabase.tryManifest, hm', List.getLast?_concat]
    rw [List.reverse_append]
    rw [show ([some a] : List (Option PersistenceCommand)).reverse = [some a] from rfl]
    rw [List.singleton_append, List.findSome?_cons]
    rfl

theorem channelStep_to_snoc {B : Nat} {s t : List PersistenceCommand}
    {c : PersistenceCommand} (hst : ChannelStep B s t) (ht : t = s ++ [c]) :
    s.length < B := by
  cases hst with
  | submit c' chan h => exact h
  | consume c' chan =>
      have hlen := congrArg List.length ht
      simp only [List.length_append, List.length_cons, List.length_nil] at hlen
      omega

/-! ### The claims -/

/-- C1: the claim states that `min_stale_key_version` returns
`Some(updated_version)` whenever some still-live buffered command carries a
non-empty stale-key list, and delegates to the store otherwise.  The code
tests `command.stale_keys.is_empty()` — the opposite predicate: with one live
command whose stale keys are `[keyB]` it delegates (returning `none` over an
empty store), and with one live command whose stale-key list is empty it
returns `some 10`. -/
theorem claim1_min_stale_key_version_inverted :
    dbStaleLive.minStaleKeyVersion = none ∧
    dbNoStaleLive.minStaleKeyVersion = some 10 := by
  exact ⟨rfl, rfl⟩

/-- C2: for any script of valid `apply_patch` inputs, any persisted prefix
`p`, and any channel capacity, every read (`try_manifest`, `try_root`,
`try_tree_node`, `tree_nodes`) on the parallel adapter returns exactly what a
sequential store returns after applying the whole script in order.  Validity
is `extractCommand` succeeding (the `apply_patch` assertions), plus the
tree-level invariant that node keys of a patch belong to the updated
version. -/
theorem claim2_mode_equivalence (base : Store) (V B p : Nat) (script : List PatchSet)
    (hvalid : ∀ patch ∈ script, (ParallelDatabase.extractCommand V patch).isSome)
    (hwf : ∀ patch ∈ script, ∀ vp ∈ patch.patchesByVersion, ∀ kn ∈ vp.2.nodes,
      kn.1.version = V) :
    let cs := script.filterMap (ParallelDatabase.extractCommand V)
    let par := (ParallelSystem.mk base V cs p).view B
    let seq := script.foldl Store.applyPatch base
    par.tryManifest = seq.tryManifest ∧
    (∀ v, par.tryRoot v = seq.tryRoot v) ∧
    (∀ k b, par.tryTreeNode k b = seq.tryTreeNode k b) ∧
    (∀ keys, par.treeNodes keys = seq.treeNodes keys) := by
  intro cs par seq
  have hwfc : ∀ c ∈ cs, ∀ kn ∈ c.patch.nodes, kn.1.version = V := by
    intro c hc
    rcases List.mem_filterMap.mp hc with ⟨patch, hpatch, hex⟩
    exact extract_nodes_wf hex (hwf patch hpatch)
  obtain ⟨hman, hroot, hnode, hnodes⟩ :=
    reads_of_readEquiv (readEquiv_scriptFold base V script hvalid)
  refine ⟨?_, fun v => ?_, fun k b => ?_, fun keys => ?_⟩
  · rw [show par = (ParallelSystem.mk base V cs p).view B from rfl,
      view_tryManifest base V B p cs, ← hman]
  · rw [show par = (ParallelSystem.mk base V cs p).view B from rfl,
      view_tryRoot base V B p cs v, ← hroot v]
  · rw [show par = (ParallelSystem.mk base V cs p).view B from rfl,
      view_tryTreeNode base V B p cs k b, ← hnode k b]
  · rw [show par = (ParallelSystem.mk base V cs p).view B from rfl,
      view_treeNodes base V B p cs hwfc keys, ← hnodes keys]

/-- C2 witness: a concrete two-patch script over a pre-populated store, with
the first command persisted and the second still buffered. -/
theorem claim2_witness :
    (∀ patch ∈ scriptW, (ParallelDatabase.extractCommand 10 patch).isSome) ∧
    (∀ patch ∈ scriptW, ∀ vp ∈ patch.patchesByVersion, ∀ kn ∈ vp.2.nodes,
      kn.1.version = 10) ∧
    (let cs := scriptW.filterMap (ParallelDatabase.extractCommand 10)
     let par := (ParallelSystem.mk oldStore 10 cs 1).view 2
     let seq := scriptW.foldl Store.applyPatch oldStore
     par.tryManifest = seq.tryManifest ∧
     (∀ v, par.tryRoot v = seq.tryRoot v) ∧
     (∀ k b, par.tryTreeNode k b = seq.tryTreeNode k b) ∧
     (∀ keys, par.treeNodes keys = seq.treeNodes keys)) :=
  ⟨by decide, by decide,
    claim2_mode_equivalence oldStore 10 2 1 scriptW (by decide) (by decide)⟩

/-- C3: `try_tree_node` at the updated version returns the node of the newest
live buffered command containing the key: if two live commands both bind the
key and no live command after the second binds it, the second (later) command
wins — the buffer is scanned newest-to-oldest and the first hit is taken. -/
theorem claim3_newest_wins (db : ParallelDatabase) (key : NodeKey) (isLeaf : Bool)
    (m₁ m₂ m₃ : List (Option PersistenceCommand)) (c₁ c₂ : PersistenceCommand)
    (n₁ n₂ : Node)
    (hm : db.mirror = m₁ ++ some c₁ :: m₂ ++ some c₂ :: m₃)
    (h₁ : assocFind c₁.patch.nodes key = some n₁)
    (h₂ : assocFind c₂.patch.nodes key = some n₂)
    (h₃ : ∀ oc ∈ m₃, oc.bind (fun c => assocFind c.patch.nodes key) = none)
    (hv : key.version = db.updatedVersion) :
    db.tryTreeNode key isLeaf = some n₂ := by
  rw [ParallelDatabase.tryTreeNode, if_neg (fun hne => hne hv), hm]
  have hsplit : m₁ ++ some c₁ :: m₂ ++ some c₂ :: m₃ =
      ((m₁ ++ some c₁ :: m₂) ++ [some c₂]) ++ m₃ := by
    simp
  have hm₃ : m₃.reverse.findSome?
      (fun oc => oc.bind (fun c => assocFind c.patch.nodes key)) = none :=
    findSome?_of_all_none (fun oc hoc => h₃ oc (List.mem_reverse.mp hoc))
  rw [hsplit, List.reverse_append, findSome?_append, hm₃, orElseO_none_left,
    List.reverse_append,
    show ([some c₂] : List (Option PersistenceCommand)).reverse = [some c₂] from rfl,
    List.singleton_append, List.findSome?_cons]
  simp [Option.some_bind, h₂]

/-- C3 witness: two live commands both binding `keyA`; the later one carries
`Node.leaf 2`, and that is what the read returns. -/
theorem claim3_witness :
    dbTwo.tryTreeNode keyA true = some (Node.leaf 2) :=
  claim3_newest_wins dbTwo keyA true [] [] [] cmdNoStale cmdStale
    (Node.leaf 1) (Node.leaf 2) rfl (by decide) (by decide)
    (fun oc hoc => absurd hoc (List.not_mem_nil oc)) (by decide)

/-- C4: `tree_nodes(keys)` returns a vector of length `|keys|` whose slot `i`
holds the newest live buffered node for `keys[i]` when some live command binds
that key, and the store's answer for `keys[i]` otherwise; the unfilled indices
travel to the store as one compact sub-request and come back at their original
positions. -/
theorem claim4_tree_nodes_positional (db : ParallelDatabase)
    (keys : List (NodeKey × Bool)) :
    (db.treeNodes keys).length = keys.length ∧
    ∀ (i : Nat) (h : i < keys.length),
      (db.treeNodes keys)[i]? =
        some (orElseO (bufferedNode db.mirror (keys.get ⟨i, h⟩).1)
          (db.inner.tryTreeNode (keys.get ⟨i, h⟩).1 (keys.get ⟨i, h⟩).2)) := by
  refine ⟨treeNodes_length db keys, fun i h => ?_⟩
  have hk : keys[i]? = some (keys.get ⟨i, h⟩) := by
    rw [List.get_eq_getElem]
    exact List.getElem?_eq_getElem h
  exact treeNodes_getElem? db keys i _ hk

/-- C4 witness: the first slot of a concrete two-key request, instantiating
the positional characterisation at index 0. -/
theorem claim4_witness :
    (dbTwo.treeNodes keysW)[0]? =
      some (orElseO (bufferedNode dbTwo.mirror (keysW.get ⟨0, by decide⟩).1)
        (dbTwo.inner.tryTreeNode (keysW.get ⟨0, by decide⟩).1
          (keysW.get ⟨0, by decide⟩).2)) :=
  (claim4_tree_nodes_positional dbTwo keysW).2 0 (by decide)

/-- C5: reads for a version other than the updated one bypass the buffer
entirely: `try_root`, `try_tree_node` and `stale_keys` forward to the inner
store unchanged, whatever the mirror holds. -/
theorem claim5_version_isolation (db : ParallelDatabase) (v : Nat) (key : NodeKey)
    (b : Bool) (hv : v ≠ db.updatedVersion) (hk : key.version = v) :
    db.tryRoot v = db.inner.tryRoot v ∧
    db.tryTreeNode key b = db.inner.tryTreeNode key b ∧
    db.staleKeys v = db.inner.staleKeys v := by
  refine ⟨?_, ?_, ?_⟩
  · rw [ParallelDatabase.tryRoot, if_pos hv]
  · rw [ParallelDatabase.tryTreeNode,
      if_pos (show key.version ≠ db.updatedVersion by rw [hk]; exact hv)]
  · rw [ParallelDatabase.staleKeys, if_pos hv]

/-- C5 witness: version 7 reads on an adapter updating version 10, with two
live buffered commands. -/
theorem claim5_witness :
    (7 ≠ dbTwo.updatedVersion ∧ keyOld.version = 7) ∧
    (dbTwo.tryRoot 7 = dbTwo.inner.tryRoot 7 ∧
      dbTwo.tryTreeNode keyOld true = dbTwo.inner.tryTreeNode keyOld true ∧
      dbTwo.staleKeys 7 = dbTwo.inner.staleKeys 7) :=
  ⟨⟨by decide, by decide⟩,
    claim5_version_isolation dbTwo 7 keyOld true (by decide) (by decide)⟩

/-- C6: `apply_patch` on an adapter updating version `V` passes its
assertions (modelled as `extractCommand` returning `some`) exactly when the
patch either names `updated_version = V` with `patches_by_version` holding
precisely the single key `V`, or carries no version update with
`patches_by_version` empty — and, in both cases, `stale_keys_by_version` is
empty or holds exactly the key `V`. -/
theorem claim6_apply_patch_validation (V : Nat) (patch : PatchSet) :
    (ParallelDatabase.extractCommand V patch).isSome ↔
      ((patch.updatedVersion = some V ∧ ∃ pp, patch.patchesByVersion = [(V, pp)]) ∨
        (patch.updatedVersion = none ∧ patch.patchesByVersion = [])) ∧
      (patch.staleKeysByVersion = [] ∨ ∃ sk, patch.staleKeysByVersion = [(V, sk)]) := by
  constructor
  · intro h
    obtain ⟨c, hc⟩ := Option.isSome_iff_exists.mp h
    obtain ⟨_, hcase, hstale⟩ := extractCommand_eq_some hc
    refine ⟨?_, hstale⟩
    rcases hcase with ⟨huv, hp⟩ | ⟨huv, hp, _⟩
    · exact Or.inl ⟨huv, c.patch, hp⟩
    · exact Or.inr ⟨huv, hp⟩
  · rintro ⟨hver, hstale⟩
    rcases hver with ⟨huv, pp, hp⟩ | ⟨huv, hp⟩
    · unfold ParallelDatabase.extractCommand
      simp only [huv, if_true]
      rw [hp,
        if_pos (show ([(V, pp)] : List (Nat × PartialPatchSet)).length = 1 from rfl)]
      simp only [assocFind_cons_self]
      exact (buildCommand_isSome V patch pp).mpr hstale
    · unfold ParallelDatabase.extractCommand
      simp only [huv]
      rw [hp,
        if_pos (show ([] : List (Nat × PartialPatchSet)).isEmpty = true from rfl)]
      exact (buildCommand_isSome V patch PartialPatchSet.empty).mpr hstale

/-- C7: `prune` first drains the buffer via `wait_sync` and only then invokes
the inner store's `prune`, exactly once: the single recorded invocation
happens on the store with every submitted command applied, and afterwards the
buffer is empty and the store equals the fully synced store pruned. -/
theorem claim7_prune_barrier (s : ParallelSystem) (P : PrunePatchSet) :
    (s.prune P).2 = [(Store.applyCommands s.base s.updatedVersion s.cmds, P)] ∧
    (s.prune P).1.cmds = [] ∧
    (s.prune P).1.base =
      (Store.applyCommands s.base s.updatedVersion s.cmds).prune P :=
  ⟨rfl, rfl, rfl⟩

/-- C8 counterexample: the claim says that `try_manifest` scans the mirror
tail to head and returns the manifest of the first command whose weak
reference upgrades, delegating only when no buffered command is live.  On a
mirror holding a live entry followed by a dead one, the tail-to-head scan
finds the live command (`cmdNoStale`, manifest version count 10), yet the
code — which upgrades only the single tail entry — falls through to the
store and returns the store manifest (version count 7). -/
theorem claim8_counterexample :
    some cmdNoStale ∈ dbLiveThenDead.mirror ∧
    dbLiveThenDead.mirror.reverse.findSome?
      (fun oc => oc.map (fun c => c.manifest)) = some cmdNoStale.manifest ∧
    dbLiveThenDead.tryManifest = some { versionCount := 7 } ∧
    cmdNoStale.manifest ≠ { versionCount := 7 } := by
  refine ⟨List.mem_cons_self _ _, rfl, rfl, ?_⟩
  decide

/-- C8 (amended): `try_manifest` upgrades only the newest (tail) mirror
entry; when the dead entries form a prefix of the mirror — as the FIFO
persistence discipline guarantees — this coincides with the claimed
behaviour: the manifest of the first live command found scanning tail to
head, with fall-through to the store only when no buffered command is
live. -/
theorem claim8_tail_only_manifest (db : ParallelDatabase) (p : Nat)
    (cs : List PersistenceCommand)
    (hm : db.mirror = List.replicate p none ++ cs.map some) :
    db.tryManifest =
      match db.mirror.reverse.findSome? (fun oc => oc.map (fun c => c.manifest)) with
      | some m => some m
      | none => db.inner.tryManifest :=
  tryManifest_deadPrefix db p cs hm

/-- C8 witness: a mirror with one dead entry followed by one live command. -/
theorem claim8_witness :
    dbDeadThenLive.mirror = List.replicate 1 none ++ [cmdNoStale].map some ∧
    dbDeadThenLive.tryManifest =
      match dbDeadThenLive.mirror.reverse.findSome?
          (fun oc => oc.map (fun c => c.manifest)) with
      | some m => some m
      | none => dbDeadThenLive.inner.tryManifest :=
  ⟨rfl, claim8_tail_only_manifest dbDeadThenLive 1 [cmdNoStale] rfl⟩

/-- C9: the persistence channel is created with fixed capacity
`bufferCapacity`; in every reachable channel state the queue holds at most
that many commands, and submitting (the send inside `apply_patch`) is
possible exactly when the queue is not full — it blocks exactly when the
queue holds `bufferCapacity` unconsumed commands. -/
theorem claim9_bounded_backpressure (B : Nat) (s : List PersistenceCommand)
    (h : ChannelReachable B s) :
    s.length ≤ B ∧
    ∀ c, (ChannelStep B s (s ++ [c]) ↔ s.length < B) ∧
      (¬ ChannelStep B s (s ++ [c]) ↔ s.length = B) := by
  have hlen : s.length ≤ B := by
    induction h with
    | init => simp
    | step hr hst ih =>
        cases hst with
        | submit c chan hlt =>
            simp only [List.length_append, List.length_cons, List.length_nil]
            omega
        | consume c chan =>
            simp only [List.length_cons] at ih
            omega
  refine ⟨hlen, fun c => ?_⟩
  have hiff : ChannelStep B s (s ++ [c]) ↔ s.length < B :=
    ⟨fun hst => channelStep_to_snoc hst rfl, fun hlt => ChannelStep.submit c s hlt⟩
  refine ⟨hiff, ?_⟩
  rw [hiff]
  omega

/-- C9 witness: the empty channel of capacity 1 reached at construction. -/
theorem claim9_witness :
    ChannelReachable 1 ([] : List PersistenceCommand) ∧
    (([] : List PersistenceCommand).length ≤ 1 ∧
      ∀ c, (ChannelStep 1 ([] : List PersistenceCommand) ([] ++ [c]) ↔
          ([] : List PersistenceCommand).length < 1) ∧
        (¬ ChannelStep 1 ([] : List PersistenceCommand) ([] ++ [c]) ↔
          ([] : List PersistenceCommand).length = 1)) :=
  ⟨ChannelReachable.init, claim9_bounded_backpressure 1 [] ChannelReachable.init⟩

/-- C10: `parallelize` is the identity on an adapter already in the
`Parallel` state — the existing adapter (its store handle, updated version,
capacity and mirror) is returned unchanged for every argument pair — and only
a `Sequential` value is converted into a fresh `Parallel` adapter. -/
theorem claim10_parallelize_noop (pdb : ParallelDatabase) (db : Store) (v b : Nat) :
    (MaybeParallel.parallel pdb).parallelize v b = MaybeParallel.parallel pdb ∧
    (MaybeParallel.sequential db).parallelize v b =
      MaybeParallel.parallel (ParallelDatabase.new db v b) :=
  ⟨rfl, rfl⟩
